import Mathlib

/-!
Shallow embedding of the oscillator core of `src/main.rs` (oxide-dco):
the tick generator, hard-sync handler, encoder fine-tune handler, the
averaging filter and the period / coarse-pitch computations of the
sampling task, together with proofs of the spec's testable properties.
-/

namespace OxideDco

/-! ### Constants (src/main.rs lines 26-29) -/

def AVG_BUF_SIZE : Nat := 32
def TIM3_FREQ_HZ : Nat := 200000
def SEC_IN_US : Nat := 1000000
def FINE_TUNE_STEP : Int := 2

/-- Modulus of the `u32` machine integers (`AtomicU32`, `u32` arithmetic). -/
def U32_MOD : Nat := 2 ^ 32

/-! ### Timing conversion (src/main.rs lines 31-37) -/

/-- `const fn circle_time() -> u32 { SEC_IN_US / TIM3_FREQ_HZ }` -/
def circle_time : Nat := SEC_IN_US / TIM3_FREQ_HZ

/-- `fn us_to_period(us: u32) -> u32 { us / circle_time() / 2 }` -/
def us_to_period (us : Nat) : Nat := us / circle_time / 2

/-! ### Tick generator and hard-sync state machine (src/main.rs lines 176-196)

State shared between the `tick` and `hard_sync` tasks: the phase counter
(`counter: AtomicU32`) and the current level of the digital output pin
(`out`, low = `false`).  `period` is passed as a parameter since `tick`
only reads it. -/

structure TickState where
  counter : Nat
  out : Bool
deriving DecidableEq, Repr

/-- One invocation of the `tick` task (TIM3 interrupt), src/main.rs 182-196:
reads the counter; if zero forces the output low; else if `counter >= period`
toggles the output and stores 0; then unconditionally `fetch_add(1)`
(wrapping `u32` addition). -/
def tick (period : Nat) (s : TickState) : TickState :=
  let c := s.counter
  if c = 0 then
    { counter := (c + 1) % U32_MOD, out := false }
  else if period ≤ c then
    -- store(0) followed by fetch_add(1): counter ends at 1
    { counter := (0 + 1) % U32_MOD, out := !s.out }
  else
    { counter := (c + 1) % U32_MOD, out := s.out }

/-- Whether a `tick` invocation from state `s` executes the toggle branch. -/
def tickToggles (period : Nat) (s : TickState) : Bool :=
  s.counter ≠ 0 && period ≤ s.counter

/-- `n` consecutive `tick` invocations (no hard-sync in between). -/
def tickIter (period : Nat) (s : TickState) : Nat → TickState
  | 0 => s
  | n + 1 => tick period (tickIter period s n)

/-- Number of toggle-branch executions during the first `n` of a run of
consecutive `tick` invocations starting from `s`. -/
def toggleCount (period : Nat) (s : TickState) : Nat → Nat
  | 0 => 0
  | n + 1 =>
    toggleCount period s n + (if tickToggles period (tickIter period s n) then 1 else 0)

/-- The `hard_sync` task (EXTI9_5 interrupt), src/main.rs 176-180:
stores 0 to the phase counter (the output pin is untouched). -/
def hardSyncStep (s : TickState) : TickState :=
  { s with counter := 0 }

/-! ### Claim C4: period conversion -/

/-- C4: the target period published by the sampling task is the converter's
period in microseconds divided by the fast-timer tick period
(`circle_time = 1000000 / 200000 = 5` microseconds, a nonzero constant)
and then by two, in integer division; neither divisor is zero. -/
theorem us_to_period_spec :
    circle_time = 5 ∧ circle_time ≠ 0 ∧ (2 : Nat) ≠ 0 ∧
    ∀ us : Nat, us_to_period us = us / 5 / 2 := by
  refine ⟨rfl, by decide, by decide, ?_⟩
  intro us
  rfl

/-! ### Tick generator arithmetic lemmas -/

/-- One tick from any state with counter in `[0, period]` lands in `[1, period]`. -/
theorem tick_counter_mem (period : Nat) (hP : 1 ≤ period) (hP32 : period < U32_MOD)
    (t : TickState) (h : t.counter ≤ period) :
    1 ≤ (tick period t).counter ∧ (tick period t).counter ≤ period := by
  unfold tick
  by_cases h0 : t.counter = 0
  · simp only [h0, if_pos rfl]
    have h1 : (0 + 1) % U32_MOD = 1 := Nat.mod_eq_of_lt (by unfold U32_MOD; norm_num)
    constructor <;> simp [h1] <;> omega
  · by_cases hge : period ≤ t.counter
    · simp only [if_neg h0, if_pos hge]
      have h1 : (0 + 1) % U32_MOD = 1 := Nat.mod_eq_of_lt (by unfold U32_MOD; norm_num)
      constructor <;> simp [h1] <;> omega
    · simp only [if_neg h0, if_neg hge]
      have hlt : t.counter + 1 < U32_MOD := by omega
      have h1 : (t.counter + 1) % U32_MOD = t.counter + 1 := Nat.mod_eq_of_lt hlt
      constructor <;> simp [h1] <;> omega

/-- Closed form of the phase counter along a run of ticks started in the
steady-state region `[1, period]`. -/
theorem tickIter_counter (period : Nat) (hP32 : period < U32_MOD)
    (s : TickState) (hlo : 1 ≤ s.counter) (hhi : s.counter ≤ period) :
    ∀ n, (tickIter period s n).counter = (s.counter - 1 + n) % period + 1 := by
  have hP : 1 ≤ period := le_trans hlo hhi
  intro n
  induction n with
  | zero =>
    have : s.counter - 1 < period := by omega
    simp [tickIter, Nat.mod_eq_of_lt this]
    omega
  | succ n ih =>
    set a := s.counter - 1 + n with ha
    have hmodlt : a % period < period := Nat.mod_lt _ (by omega)
    have hsucc : (a + 1) % period = (a % period + 1) % period := by
      conv_lhs => rw [← Nat.div_add_mod a period]
      rw [Nat.add_assoc, Nat.mul_add_mod]
    have hstep : tickIter period s (n + 1) = tick period (tickIter period s n) := rfl
    rw [hstep]
    by_cases hc : a % period + 1 = period
    · -- the counter has reached the period: toggle branch, counter resets to 1
      have hcnt : (tickIter period s n).counter = period := by rw [ih]; omega
      have : (a + 1) % period = 0 := by
        rw [hsucc, hc, Nat.mod_self]
      unfold tick
      rw [hcnt]
      simp only [if_neg (by omega : ¬period = 0), if_pos (le_refl period)]
      have h1 : (0 + 1) % U32_MOD = 1 := Nat.mod_eq_of_lt (by unfold U32_MOD; norm_num)
      simp only [h1]
      have : s.counter - 1 + (n + 1) = a + 1 := by omega
      rw [this]
      omega
    · -- strictly below the period: plain increment
      have hcltP : a % period + 1 < period := by omega
      have hcnt : (tickIter period s n).counter = a % period + 1 := ih
      have hne0 : (tickIter period s n).counter ≠ 0 := by omega
      have hnge : ¬period ≤ (tickIter period s n).counter := by omega
      unfold tick
      simp only [if_neg hne0, if_neg hnge]
      have hlt : (tickIter period s n).counter + 1 < U32_MOD := by
        rw [hcnt]; omega
      rw [Nat.mod_eq_of_lt hlt, hcnt]
      have : (a + 1) % period = a % period + 1 := by
        rw [hsucc, Nat.mod_eq_of_lt hcltP]
      have harw : s.counter - 1 + (n + 1) = a + 1 := by omega
      rw [harw, this]

/-- Closed form of the number of toggles along a steady-state run. -/
theorem toggleCount_eq (period : Nat) (hP32 : period < U32_MOD)
    (s : TickState) (hlo : 1 ≤ s.counter) (hhi : s.counter ≤ period) :
    ∀ n, toggleCount period s n = (n + s.counter - 1) / period := by
  have hP : 1 ≤ period := le_trans hlo hhi
  intro n
  induction n with
  | zero =>
    simp [toggleCount]
    exact (Nat.div_eq_of_lt (by omega)).symm
  | succ n ih =>
    set a := s.counter - 1 + n with ha
    have hcnt : (tickIter period s n).counter = a % period + 1 :=
      tickIter_counter period hP32 s hlo hhi n
    have hmodlt : a % period < period := Nat.mod_lt _ (by omega)
    have hsucc : (a + 1) % period = (a % period + 1) % period := by
      conv_lhs => rw [← Nat.div_add_mod a period]
      rw [Nat.add_assoc, Nat.mul_add_mod]
    have hiff : tickToggles period (tickIter period s n) = true ↔ period ∣ a + 1 := by
      unfold tickToggles
      rw [Nat.dvd_iff_mod_eq_zero, hsucc]
      constructor
      · intro h
        simp only [Bool.and_eq_true, decide_eq_true_eq, ne_eq] at h
        have : a % period + 1 = period := by
          rw [hcnt] at h
          omega
        rw [this, Nat.mod_self]
      · intro h
        by_cases hc : a % period + 1 = period
        · simp only [Bool.and_eq_true, decide_eq_true_eq, ne_eq]
          rw [hcnt]
          omega
        · exfalso
          rw [Nat.mod_eq_of_lt (by omega)] at h
          omega
    have hform : (n + 1 + s.counter - 1) = a + 1 := by omega
    have hform2 : (n + s.counter - 1) = a := by omega
    unfold toggleCount
    rw [ih, hform, hform2, Nat.succ_div]
    by_cases hd : period ∣ a + 1
    · rw [if_pos hd, if_pos (hiff.mpr hd)]
    · rw [if_neg hd, if_neg (by
        intro hcontra
        exact hd (hiff.mp hcontra))]

/-! ### Claim C1: fixed period, toggle cadence and counter bound -/

/-- C1: with a fixed target period `P ≥ 1` (a `u32`), a tick from any state
with counter in `[0, P]` keeps the counter in `[0, P]` (it never exceeds
`P`, and is at least 1 afterwards); and along any run of tick invocations
(no hard sync) started in the post-first-invocation region `[1, P]`, the
counter stays in `[1, P]` and every window of `P` consecutive invocations
executes the toggle branch exactly once. -/
theorem tick_fixed_period (period : Nat) (hP : 1 ≤ period) (hP32 : period < U32_MOD) :
    (∀ t : TickState, t.counter ≤ period →
      1 ≤ (tick period t).counter ∧ (tick period t).counter ≤ period) ∧
    (∀ t : TickState, 1 ≤ t.counter →
      (tick period t).out = (if tickToggles period t then !t.out else t.out)) ∧
    (∀ s : TickState, 1 ≤ s.counter → s.counter ≤ period →
      (∀ n, 1 ≤ (tickIter period s n).counter ∧ (tickIter period s n).counter ≤ period) ∧
      (∀ m, toggleCount period s (m + period) = toggleCount period s m + 1)) := by
  refine ⟨?_, ?_, ?_⟩
  · intro t h
    exact tick_counter_mem period hP hP32 t h
  · intro t ht
    have h0 : ¬t.counter = 0 := by omega
    unfold tick tickToggles
    by_cases hge : period ≤ t.counter
    · rw [if_neg h0, if_pos hge]
      simp [h0, hge]
    · rw [if_neg h0, if_neg hge]
      simp [h0, hge]
  · intro s hlo hhi
    constructor
    · intro n
      rw [tickIter_counter period hP32 s hlo hhi n]
      have : (s.counter - 1 + n) % period < period := Nat.mod_lt _ (by omega)
      omega
    · intro m
      rw [toggleCount_eq period hP32 s hlo hhi, toggleCount_eq period hP32 s hlo hhi]
      have h1 : m + period + s.counter - 1 = (m + s.counter - 1) + period := by omega
      rw [h1, Nat.add_div_right _ (by omega)]

/-- Witness for C1 at `period = 3`, steady state `counter = 1`. -/
theorem tick_fixed_period_witness :
    (1 ≤ (tick 3 { counter := 2, out := false } : TickState).counter ∧
      (tick 3 { counter := 2, out := false } : TickState).counter ≤ 3) ∧
    (tick 3 { counter := 3, out := false } : TickState).out =
      (if tickToggles 3 { counter := 3, out := false } then !false else false) ∧
    (1 ≤ (tickIter 3 { counter := 1, out := false } 7).counter ∧
      (tickIter 3 { counter := 1, out := false } 7).counter ≤ 3) ∧
    toggleCount 3 { counter := 1, out := false } (2 + 3) =
      toggleCount 3 { counter := 1, out := false } 2 + 1 := by
  have h := tick_fixed_period 3 (by norm_num) (by unfold U32_MOD; norm_num)
  exact ⟨h.1 { counter := 2, out := false } (by norm_num),
    h.2.1 { counter := 3, out := false } (by norm_num),
    (h.2.2 { counter := 1, out := false } (by norm_num) (by norm_num)).1 7,
    (h.2.2 { counter := 1, out := false } (by norm_num) (by norm_num)).2 2⟩

/-! ### Claim C2: hard sync followed by one tick -/

/-- C2: from any state, a hard-sync invocation immediately followed by one
tick invocation makes the tick read phase counter 0 and force the output
low. -/
theorem hard_sync_then_tick (period : Nat) (s : TickState) :
    (hardSyncStep s).counter = 0 ∧ (tick period (hardSyncStep s)).out = false := by
  constructor
  · rfl
  · simp [tick, hardSyncStep]

/-! ### Claim C6: target period zero -/

/-- With period 0, any tick leaves the counter at exactly 1. -/
theorem tick_zero_counter (t : TickState) : (tick 0 t).counter = 1 := by
  unfold tick
  by_cases h0 : t.counter = 0
  · simp [h0, U32_MOD]
  · simp [h0, Nat.zero_le, U32_MOD]

/-- C6 counterexample: with target period 0 and phase counter 0 (the
initial state, or the state right after a hard sync), the tick invocation
does not toggle; it takes the force-low branch and the output level does
not change. -/
theorem tick_period_zero_counterexample :
    tickToggles 0 { counter := 0, out := false } = false ∧
    (tick 0 { counter := 0, out := false } : TickState).out = false := by
  constructor
  · rfl
  · simp [tick]

/-- C6 amended: with target period 0, every tick invocation that observes a
nonzero phase counter executes the toggle branch and inverts the output;
and in any run of consecutive ticks every invocation after the first
toggles. -/
theorem tick_period_zero (s : TickState) (h : s.counter ≠ 0) :
    tickToggles 0 s = true ∧ (tick 0 s).out = !s.out ∧
    ∀ t : TickState, ∀ n, 1 ≤ n → tickToggles 0 (tickIter 0 t n) = true := by
  refine ⟨?_, ?_, ?_⟩
  · simp [tickToggles, h]
  · unfold tick
    simp [h]
  · intro t n hn
    obtain ⟨m, rfl⟩ : ∃ m, n = m + 1 := ⟨n - 1, by omega⟩
    have hc : (tickIter 0 t (m + 1)).counter = 1 := tick_zero_counter (tickIter 0 t m)
    simp [tickToggles, hc]

/-- Witness for C6 (amended) at `counter = 5`. -/
theorem tick_period_zero_witness :
    tickToggles 0 { counter := 5, out := false } = true ∧
    (tick 0 { counter := 5, out := false } : TickState).out = true ∧
    tickToggles 0 (tickIter 0 { counter := 0, out := false } 3) = true := by
  have h := tick_period_zero { counter := 5, out := false } (by norm_num)
  exact ⟨h.1, h.2.1, h.2.2 { counter := 0, out := false } 3 (by norm_num)⟩

/-! ### Claim C10: the counter is positive after every completed tick -/

/-- Events that touch the phase counter: an invocation of the tick task or
of the hard-sync task. -/
inductive Ev where
  | tickEv
  | hardSyncEv
deriving DecidableEq, Repr

/-- Effect of one event on the shared tick state. -/
def evStep (period : Nat) (s : TickState) : Ev → TickState
  | Ev.tickEv => tick period s
  | Ev.hardSyncEv => hardSyncStep s

/-- A run of tick / hard-sync invocations from state `s`. -/
def evRun (period : Nat) (s : TickState) (evs : List Ev) : TickState :=
  evs.foldl (evStep period) s

/-- After any tick from any `u32` state, the counter is at least 1. -/
theorem tick_counter_pos (period : Nat) (hP32 : period < U32_MOD)
    (t : TickState) : 1 ≤ (tick period t).counter := by
  unfold tick
  by_cases h0 : t.counter = 0
  · simp [h0, U32_MOD]
  · by_cases hge : period ≤ t.counter
    · simp [h0, hge, U32_MOD]
    · simp only [if_neg h0, if_neg hge]
      have : t.counter + 1 < U32_MOD := by omega
      rw [Nat.mod_eq_of_lt this]
      omega

/-- C10: every completed tick invocation leaves the phase counter at least
1, so along any run of tick and hard-sync invocations, the state in which
the tick task would read counter 0 (and take the force-output-low branch)
occurs only at the very start of the run or immediately after a hard-sync
invocation. -/
theorem counter_zero_only_at_start_or_sync (period : Nat) (hP32 : period < U32_MOD)
    (s : TickState) :
    (∀ t : TickState, 1 ≤ (tick period t).counter) ∧
    ∀ evs : List Ev, (evRun period s evs).counter = 0 →
      evs = [] ∨ ∃ pre, evs = pre ++ [Ev.hardSyncEv] := by
  constructor
  · exact fun t => tick_counter_pos period hP32 t
  · intro evs
    induction evs using List.reverseRecOn with
    | nil => intro _; exact Or.inl rfl
    | append_singleton pre e _ =>
      intro h
      cases e with
      | tickEv =>
        exfalso
        have hrun : evRun period s (pre ++ [Ev.tickEv]) =
            tick period (evRun period s pre) := by
          unfold evRun
          rw [List.foldl_append]
          rfl
        rw [hrun] at h
        have := tick_counter_pos period hP32 (evRun period s pre)
        omega
      | hardSyncEv => exact Or.inr ⟨pre, rfl⟩

/-- Witness for C10: one conjunct at a concrete state, the other on the
run consisting of a single hard-sync invocation. -/
theorem counter_zero_only_at_start_or_sync_witness :
    1 ≤ (tick 5 { counter := 3, out := false } : TickState).counter ∧
    ([Ev.hardSyncEv] = ([] : List Ev) ∨
      ∃ pre, [Ev.hardSyncEv] = pre ++ [Ev.hardSyncEv]) := by
  have h := counter_zero_only_at_start_or_sync 5 (by unfold U32_MOD; norm_num)
    { counter := 0, out := false }
  exact ⟨h.1 { counter := 3, out := false }, h.2 [Ev.hardSyncEv] rfl⟩

/-! ### Claim C9: every task clears its pending flag exactly once -/

/-- Observable side effects of one task invocation, in program order. -/
inductive Effect where
  | setLow
  | toggleOut
  | storeCounter (n : Nat)
  | incCounter
  | clearFlag
  | adcStore
  | storePeriod
  | writeCoarsePort
  | addFineTune (d : Int)
deriving DecidableEq, Repr

/-- Effect trace of one `tick` invocation reading counter `c`
(src/main.rs 182-196); the flag clear is the unconditional last statement. -/
def tickEffects (period c : Nat) : List Effect :=
  (if c = 0 then [Effect.setLow]
   else if period ≤ c then [Effect.toggleOut, Effect.storeCounter 0]
   else []) ++ [Effect.incCounter, Effect.clearFlag]

/-- Effect trace of one `hard_sync` invocation (src/main.rs 176-180). -/
def hardSyncEffects : List Effect :=
  [Effect.storeCounter 0, Effect.clearFlag]

/-- Effect trace of one `encoder_handler` invocation reading GPIOA IDR
value `bits` (src/main.rs 156-174); the EXTI pending-register write is the
unconditional last statement. -/
def encoderEffects (bits : Nat) : List Effect :=
  (if bits &&& (1 <<< 11) = 0 then [Effect.addFineTune FINE_TUNE_STEP]
   else [Effect.addFineTune (-FINE_TUNE_STEP)]) ++ [Effect.clearFlag]

/-- Effect trace of one `measure` invocation with pre-increment sample
index `avgc` (src/main.rs 198-224); the period store and coarse-port write
happen only on a buffer-fill boundary, the flag clear always. -/
def measureEffects (avgc : Nat) : List Effect :=
  [Effect.adcStore] ++
  (if (avgc + 1) % AVG_BUF_SIZE = 0 then [Effect.storePeriod, Effect.writeCoarsePort]
   else []) ++ [Effect.clearFlag]

/-- C9: on every execution path, each of the four tasks clears its
triggering interrupt-pending flag exactly once per invocation. -/
theorem tasks_clear_flag_once (period c bits avgc : Nat) :
    (tickEffects period c).count Effect.clearFlag = 1 ∧
    hardSyncEffects.count Effect.clearFlag = 1 ∧
    (encoderEffects bits).count Effect.clearFlag = 1 ∧
    (measureEffects avgc).count Effect.clearFlag = 1 := by
  refine ⟨?_, by decide, ?_, ?_⟩
  · unfold tickEffects
    by_cases h0 : c = 0
    · rw [if_pos h0]; decide
    · rw [if_neg h0]
      by_cases hge : period ≤ c
      · rw [if_pos hge]; decide
      · rw [if_neg hge]; decide
  · unfold encoderEffects
    by_cases hb : bits &&& (1 <<< 11) = 0
    · rw [if_pos hb]; decide
    · rw [if_neg hb]; decide
  · unfold measureEffects
    by_cases ha : (avgc + 1) % AVG_BUF_SIZE = 0
    · rw [if_pos ha]; decide
    · rw [if_neg ha]; decide

/-! ### Claim C3: the averaging filter (src/main.rs 39-46) -/

/-- The accumulator loop of `fn avg`: `acc: u32` starts at 0 and adds each
of the 32 `u16` buffer entries in index order (wrapping `u32` addition). -/
def avgAcc (buf : Fin AVG_BUF_SIZE → Nat) : Nat :=
  (List.ofFn buf).foldl (fun acc x => (acc + x) % U32_MOD) 0

/-- `fn avg(buf: &mut [u16; AVG_BUF_SIZE]) -> u32`: accumulated sum divided
by `AVG_BUF_SIZE` in integer division. -/
def avg (buf : Fin AVG_BUF_SIZE → Nat) : Nat :=
  avgAcc buf / AVG_BUF_SIZE

/-- A wrapping fold whose total stays below the modulus is a plain sum. -/
theorem foldl_mod_eq_sum (l : List Nat) :
    ∀ acc : Nat, acc + l.sum < U32_MOD →
      l.foldl (fun a x => (a + x) % U32_MOD) acc = acc + l.sum := by
  induction l with
  | nil => intro acc _; simp
  | cons x t ih =>
    intro acc h
    simp only [List.sum_cons] at h
    have hx : acc + x < U32_MOD := by omega
    simp only [List.foldl_cons, Nat.mod_eq_of_lt hx]
    rw [ih (acc + x) (by omega)]
    simp [List.sum_cons]
    omega

/-- C3: for buffer entries in `u16` range, the averaging filter returns the
integer-floor arithmetic mean of the 32 samples; for 32 identical values
`v` it returns `v`, and for 31 zeros and one entry `32 * k` (with `32 * k`
in `u16` range, i.e. `k ≤ 2047`) it returns `k`. -/
theorem avg_floor_mean :
    (∀ buf : Fin AVG_BUF_SIZE → Nat, (∀ i, buf i < 2 ^ 16) →
      avg buf = (∑ i, buf i) / AVG_BUF_SIZE) ∧
    (∀ v : Nat, v < 2 ^ 16 → avg (fun _ => v) = v) ∧
    (∀ k : Nat, k ≤ 2047 →
      avg (fun i => if i.val = AVG_BUF_SIZE - 1 then AVG_BUF_SIZE * k else 0) = k) := by
  have hmain : ∀ buf : Fin AVG_BUF_SIZE → Nat, (∀ i, buf i < 2 ^ 16) →
      avg buf = (∑ i, buf i) / AVG_BUF_SIZE := by
    intro buf h
    have hsum : (List.ofFn buf).sum = ∑ i, buf i := List.sum_ofFn
    have hbound : (∑ i, buf i) ≤ ∑ _i : Fin AVG_BUF_SIZE, (2 ^ 16 - 1) := by
      refine Finset.sum_le_sum ?_
      intro i _
      have := h i
      omega
    have hconst : (∑ _i : Fin AVG_BUF_SIZE, (2 ^ 16 - 1)) = AVG_BUF_SIZE * (2 ^ 16 - 1) := by
      simp [Finset.sum_const, Finset.card_univ]
    have hlt : (0 : Nat) + (List.ofFn buf).sum < U32_MOD := by
      rw [hsum]
      unfold U32_MOD
      have : AVG_BUF_SIZE * (2 ^ 16 - 1) < 2 ^ 32 := by unfold AVG_BUF_SIZE; norm_num
      omega
    unfold avg avgAcc
    rw [foldl_mod_eq_sum (List.ofFn buf) 0 hlt, Nat.zero_add, hsum]
  refine ⟨hmain, ?_, ?_⟩
  · intro v hv
    rw [hmain (fun _ => v) (fun _ => hv)]
    have : (∑ _i : Fin AVG_BUF_SIZE, v) = AVG_BUF_SIZE * v := by
      simp [Finset.sum_const, Finset.card_univ]
    rw [this, Nat.mul_div_cancel_left v (by unfold AVG_BUF_SIZE; norm_num)]
  · intro k hk
    have hentry : ∀ i : Fin AVG_BUF_SIZE,
        (if i.val = AVG_BUF_SIZE - 1 then AVG_BUF_SIZE * k else 0) < 2 ^ 16 := by
      intro i
      by_cases hi : i.val = AVG_BUF_SIZE - 1
      · rw [if_pos hi]; unfold AVG_BUF_SIZE; omega
      · rw [if_neg hi]; norm_num
    rw [hmain _ hentry]
    have hsum : (∑ i : Fin AVG_BUF_SIZE,
        if i.val = AVG_BUF_SIZE - 1 then AVG_BUF_SIZE * k else 0) = AVG_BUF_SIZE * k := by
      rw [Fin.sum_univ_eq_sum_range (fun j => if j = AVG_BUF_SIZE - 1 then AVG_BUF_SIZE * k else 0)]
      rw [Finset.sum_ite_eq' (Finset.range AVG_BUF_SIZE) (AVG_BUF_SIZE - 1)
        (fun _ => AVG_BUF_SIZE * k)]
      rw [if_pos (by unfold AVG_BUF_SIZE; norm_num : AVG_BUF_SIZE - 1 ∈ Finset.range AVG_BUF_SIZE)]
    rw [hsum, Nat.mul_div_cancel_left k (by unfold AVG_BUF_SIZE; norm_num)]

/-- Witness for C3: a constant buffer of fives, a constant buffer of
sevens, and the one-hot buffer with `32 * 3`. -/
theorem avg_floor_mean_witness :
    avg (fun _ => 5) = (∑ _i : Fin AVG_BUF_SIZE, 5) / AVG_BUF_SIZE ∧
    avg (fun _ => 7) = 7 ∧
    avg (fun i => if i.val = AVG_BUF_SIZE - 1 then AVG_BUF_SIZE * 3 else 0) = 3 := by
  exact ⟨avg_floor_mean.1 (fun _ => 5) (fun _ => by norm_num),
    avg_floor_mean.2.1 7 (by norm_num),
    avg_floor_mean.2.2 3 (by norm_num)⟩

/-! ### Claim C5: the composite millivolt value (src/main.rs 206-211)

Float arithmetic of the source is embedded exactly over `ℚ`.  The
`fine_tune.load` is embedded as one read from an indexed read oracle, so
that the number of loads performed is part of the result. -/

/-- One `fine_tune.load(Ordering::Relaxed)`: consumes read index `ix` of
the oracle and advances the index. -/
def loadFineTune (reads : Nat → ℚ) (ix : Nat) : ℚ × Nat :=
  (reads ix, ix + 1)

/-- The fixed reference voltage of the composite pitch formula. -/
def REFERENCE_MV : ℚ := 6000

/-- `MvOct(6000.0 - 2.0 * voltage) + fine_tune.load(...) as f32`: the
composite millivolt value together with the oracle index after the
computation (initial index 0). -/
def compositeMv (voltage : ℚ) (reads : Nat → ℚ) : ℚ × Nat :=
  let r := loadFineTune reads 0
  (REFERENCE_MV - 2 * voltage + r.1, r.2)

/-- C5: the composite millivolt value passed to the converter equals the
fixed reference voltage 6000 minus twice the measured voltage plus the
fine-tune offset, and exactly one load of the offset is performed (the
final read index is 1), so the value used is the single value read. -/
theorem composite_formula (voltage : ℚ) (reads : Nat → ℚ) :
    (compositeMv voltage reads).1 = 6000 - 2 * voltage + reads 0 ∧
    (compositeMv voltage reads).2 = 0 + 1 := by
  exact ⟨rfl, rfl⟩

/-! ### Claim C7: the coarse pitch port write (src/main.rs 218-220) -/

/-- `(mv.hz() / 16.0) as u32` for a frequency `hz`: floor of `hz / 16`,
clamped to the `u32` range as the Rust float-to-integer cast does. -/
def coarseByte (hz : ℚ) : Nat :=
  min (Int.toNat ⌊hz / 16⌋) (U32_MOD - 1)

/-- The ODR read-modify-write:
`w.bits((r.bits() & (0xff << 8)) | coarse & 0xff)`. -/
def writeCoarse (r c : Nat) : Nat :=
  (r &&& (0xff <<< 8)) ||| (c &&& 0xff)

/-- Bit-level description of the written ODR value. -/
theorem writeCoarse_testBit (r c i : Nat) :
    (writeCoarse r c).testBit i =
      if i < 8 then c.testBit i else if i < 16 then r.testBit i else false := by
  unfold writeCoarse
  have h1 : (0xff : Nat) = 2 ^ 8 - 1 := rfl
  simp only [Nat.testBit_or, Nat.testBit_and, Nat.testBit_shiftLeft, h1,
    Nat.testBit_two_pow_sub_one]
  by_cases h8 : i < 8
  · simp [h8, (by omega : ¬8 ≤ i)]
  · by_cases h16 : i < 16
    · simp [h8, h16, (by omega : 8 ≤ i), (by omega : i - 8 < 8)]
    · simp [h8, h16]
      intros
      omega

/-- C7: when the converter frequency gives `⌊hz / 16⌋ < 2^32` (no cast
saturation), the value written to the coarse pitch port has low byte
(bits [7:0]) equal to `⌊hz / 16⌋` masked to the low byte, and bits [15:8]
equal to the corresponding bits of the prior port value `r`
(read-modify-write leaves them untouched). -/
theorem coarse_write (r : Nat) (hz : ℚ) (h32 : (⌊hz / 16⌋ : ℤ) < 2 ^ 32) :
    writeCoarse r (coarseByte hz) % 256 = Int.toNat ⌊hz / 16⌋ % 256 ∧
    ∀ i, 8 ≤ i → i < 16 → (writeCoarse r (coarseByte hz)).testBit i = r.testBit i := by
  have hcb : coarseByte hz = Int.toNat ⌊hz / 16⌋ := by
    unfold coarseByte U32_MOD
    omega
  constructor
  · rw [hcb]
    apply Nat.eq_of_testBit_eq
    intro i
    have h256 : (256 : Nat) = 2 ^ 8 := rfl
    rw [h256, Nat.testBit_mod_two_pow, Nat.testBit_mod_two_pow, writeCoarse_testBit]
    by_cases h8 : i < 8
    · simp [h8]
    · simp [h8]
  · intro i h8 h16
    rw [writeCoarse_testBit]
    rw [if_neg (by omega), if_pos h16]

/-- Witness for C7 at prior port value `0xabcd` and frequency 100 Hz. -/
theorem coarse_write_witness :
    writeCoarse 43981 (coarseByte 100) % 256 = Int.toNat ⌊(100 : ℚ) / 16⌋ % 256 ∧
    (writeCoarse 43981 (coarseByte 100)).testBit 9 = (43981 : Nat).testBit 9 := by
  have h := coarse_write 43981 100 (by norm_num)
  exact ⟨h.1, h.2 9 (by norm_num) (by norm_num)⟩

/-! ### Claim C8: the encoder fine-tune handler (src/main.rs 156-174) -/

/-- Whether a GPIOA IDR value read at the edge has the companion channel
(bit 11) low: `(bits & (1 << 11)) == 0`. -/
def isLowEdge (bits : Nat) : Bool :=
  bits &&& (1 <<< 11) == 0

/-- Wrapping of `i16` two's-complement arithmetic (`AtomicI16::fetch_add`
wraps on overflow). -/
def wrap16 (x : Int) : Int :=
  (x + 32768) % 65536 - 32768

/-- One `encoder_handler` invocation reading GPIOA IDR value `bits`:
companion channel low adds `FINE_TUNE_STEP`, high adds
`-FINE_TUNE_STEP`, in wrapping `i16` arithmetic. -/
def encoderStep (bits : Nat) (offset : Int) : Int :=
  if bits &&& (1 <<< 11) = 0 then wrap16 (offset + FINE_TUNE_STEP)
  else wrap16 (offset + -FINE_TUNE_STEP)

/-- A sequence of encoder edges applied to an offset. -/
def encoderRun (offset : Int) (edges : List Nat) : Int :=
  edges.foldl (fun o b => encoderStep b o) offset

theorem wrap16_mem (x : Int) : -32768 ≤ wrap16 x ∧ wrap16 x ≤ 32767 := by
  unfold wrap16
  omega

theorem wrap16_eq_self (x : Int) (hlo : -32768 ≤ x) (hhi : x ≤ 32767) :
    wrap16 x = x := by
  unfold wrap16
  omega

theorem wrap16_wrap16_add (x d : Int) : wrap16 (wrap16 x + d) = wrap16 (x + d) := by
  unfold wrap16
  omega

/-- C8 counterexample: at starting offset 32766 (a valid `i16` value) an
edge with the companion channel low does not increment the offset by the
fixed step over the integers: the wrapping `i16` addition yields -32768,
not 32768. -/
theorem encoder_step_exact_counterexample :
    encoderStep 0 32766 = -32768 ∧ encoderStep 0 32766 ≠ 32766 + FINE_TUNE_STEP := by
  constructor
  · decide
  · decide

/-- Closed form of an encoder edge sequence from a valid `i16` offset. -/
theorem encoderRun_eq (edges : List Nat) :
    ∀ offset : Int, -32768 ≤ offset → offset ≤ 32767 →
      encoderRun offset edges =
        wrap16 (offset + FINE_TUNE_STEP *
          ((edges.countP isLowEdge : Int) -
            (edges.countP (fun b => !isLowEdge b) : Int))) := by
  induction edges with
  | nil =>
    intro offset hlo hhi
    simp [encoderRun, wrap16_eq_self offset hlo hhi]
  | cons b t ih =>
    intro offset hlo hhi
    have hstep : encoderRun offset (b :: t) = encoderRun (encoderStep b offset) t := rfl
    have hmem : -32768 ≤ encoderStep b offset ∧ encoderStep b offset ≤ 32767 := by
      unfold encoderStep
      by_cases hb : b &&& (1 <<< 11) = 0
      · rw [if_pos hb]; exact wrap16_mem _
      · rw [if_neg hb]; exact wrap16_mem _
    rw [hstep, ih (encoderStep b offset) hmem.1 hmem.2]
    by_cases hb : b &&& (1 <<< 11) = 0
    · have hlow : isLowEdge b = true := by
        unfold isLowEdge
        exact beq_iff_eq.mpr hb
      have hcL : ((b :: t).countP isLowEdge : Int) = (t.countP isLowEdge : Int) + 1 := by
        rw [List.countP_cons]
        simp [hlow]
      have hcH : ((b :: t).countP (fun x => !isLowEdge x) : Int) =
          (t.countP (fun x => !isLowEdge x) : Int) := by
        rw [List.countP_cons]
        simp [hlow]
      rw [hcL, hcH]
      unfold encoderStep
      rw [if_pos hb, wrap16_wrap16_add]
      congr 1
      unfold FINE_TUNE_STEP
      ring
    · have hlow : isLowEdge b = false := by
        unfold isLowEdge
        exact beq_eq_false_iff_ne.mpr hb
      have hcL : ((b :: t).countP isLowEdge : Int) = (t.countP isLowEdge : Int) := by
        rw [List.countP_cons]
        simp [hlow]
      have hcH : ((b :: t).countP (fun x => !isLowEdge x) : Int) =
          (t.countP (fun x => !isLowEdge x) : Int) + 1 := by
        rw [List.countP_cons]
        simp [hlow]
      rw [hcL, hcH]
      unfold encoderStep
      rw [if_neg hb, wrap16_wrap16_add]
      congr 1
      unfold FINE_TUNE_STEP
      ring

/-- C8 amended: from a valid `i16` offset, an edge with the companion
channel low adds the fixed step in wrapping `i16` arithmetic — exactly
`offset + FINE_TUNE_STEP` whenever that value still fits in `i16` — an
edge with the channel high likewise subtracts it, and any edge sequence
with equally many low-channel and high-channel edges returns the offset
exactly to its original value. -/
theorem encoder_fine_tune (offset : Int) (hlo : -32768 ≤ offset) (hhi : offset ≤ 32767)
    (bl bh : Nat) (hbl : bl &&& (1 <<< 11) = 0) (hbh : bh &&& (1 <<< 11) ≠ 0) :
    (offset + FINE_TUNE_STEP ≤ 32767 →
      encoderStep bl offset = offset + FINE_TUNE_STEP) ∧
    (-32768 ≤ offset - FINE_TUNE_STEP →
      encoderStep bh offset = offset - FINE_TUNE_STEP) ∧
    ∀ edges : List Nat,
      edges.countP isLowEdge = edges.countP (fun b => !isLowEdge b) →
      encoderRun offset edges = offset := by
  refine ⟨?_, ?_, ?_⟩
  · intro h
    unfold encoderStep
    rw [if_pos hbl]
    exact wrap16_eq_self _ (by unfold FINE_TUNE_STEP at *; omega)
      (by unfold FINE_TUNE_STEP at *; omega)
  · intro h
    unfold encoderStep
    rw [if_neg hbh]
    have : offset + -FINE_TUNE_STEP = offset - FINE_TUNE_STEP := by ring
    rw [this]
    exact wrap16_eq_self _ (by unfold FINE_TUNE_STEP at *; omega)
      (by unfold FINE_TUNE_STEP at *; omega)
  · intro edges hcount
    rw [encoderRun_eq edges offset hlo hhi, hcount]
    simp [wrap16_eq_self offset hlo hhi]

/-- Witness for C8 (amended) at offset 0 with edges reading IDR values 0
(bit 11 low) and 2048 (bit 11 high). -/
theorem encoder_fine_tune_witness :
    encoderStep 0 0 = 0 + FINE_TUNE_STEP ∧
    encoderStep 2048 0 = 0 - FINE_TUNE_STEP ∧
    encoderRun 0 [0, 2048] = 0 := by
  have h := encoder_fine_tune 0 (by norm_num) (by norm_num) 0 2048 (by decide) (by decide)
  exact ⟨h.1 (by decide), h.2.1 (by decide), h.2.2 [0, 2048] (by decide)⟩

end OxideDco
